import Mathlib

set_option maxHeartbeats 1000000

/-!
Verification development for the PAI-OpenCode Sentiment & Outcome Capture
Pipeline. The definitions below are a shallow embedding of
`.opencode/plugins/handlers/implicit-sentiment.ts` and
`.opencode/plugins/handlers/response-capture.ts`: JavaScript strings become
`String`/`List Char`, the regular expressions of the source are expanded into
explicit character-list matchers with the same backtracking behaviour,
numbers become `Int`/`Nat`, confidence values become `Rat`, and the external
inference call plus the file system are passed in as explicit parameters.
-/

/-! ## Generic character-list helpers (JS string primitives) -/

/-- Whitespace class used by the source's regexes (`\s`) and `String.trim`,
restricted to the code points that actually occur in this pipeline. -/
def isJsSpace (c : Char) : Bool :=
  if c = ' ' ∨ c = '\t' ∨ c = '\n' ∨ c = '\r' ∨ c = '\x0b' ∨ c = '\x0c' ∨ c = ' '
  then true else false

/-- JavaScript `String.prototype.trim` on a character list. -/
def jsTrim (cs : List Char) : List Char :=
  ((cs.dropWhile isJsSpace).reverse.dropWhile isJsSpace).reverse

/-- ASCII lower-casing, used to model the `i` flag of the source's regexes. -/
def asciiLower (c : Char) : Char :=
  if 'A' ≤ c ∧ c ≤ 'Z' then Char.ofNat (c.toNat + 32) else c

/-- Boolean prefix test on character lists. -/
def isPrefC : List Char → List Char → Bool
  | [], _ => true
  | _ :: _, [] => false
  | p :: ps, c :: cs => p == c && isPrefC ps cs

/-- Boolean infix (substring) test on character lists; models JS `includes`. -/
def isInfC (pat : List Char) : List Char → Bool
  | [] => isPrefC pat []
  | c :: cs => isPrefC pat (c :: cs) || isInfC pat cs

/-- Number of positions at which `pat` occurs as a substring. -/
def countSub (pat : List Char) : List Char → Nat
  | [] => if isPrefC pat [] then 1 else 0
  | c :: cs => (if isPrefC pat (c :: cs) then 1 else 0) + countSub pat cs

/-- Case-insensitive prefix test (both sides ASCII-lowered). -/
def ciPrefC (pat : List Char) (cs : List Char) : Bool :=
  isPrefC (pat.map asciiLower) (cs.map asciiLower)

/-- Decimal digit test, modelling the regex class `\d`. -/
def isDigitC (c : Char) : Bool :=
  if '0' ≤ c ∧ c ≤ '9' then true else false

/-- Value of a list of decimal digits, modelling `parseInt(_, 10)`. -/
def digitsToNat (ds : List Char) : Nat :=
  ds.foldl (fun n c => n * 10 + (c.toNat - '0'.toNat)) 0

/-! ## ImplicitSentimentCapture handler (`implicit-sentiment.ts`) -/

/-- Shape returned by the inference collaborator (`SentimentResult` in the
source): `rating` is `1-10 or null`, `confidence` is a number in `0.0-1.0`
modelled as a rational. -/
structure SentimentResult where
  rating : Option Int
  sentiment : String
  confidence : ℚ
  summary : String
  detailed_context : String
deriving DecidableEq

/-- Record appended to `ratings.jsonl` (`ImplicitRatingEntry` in the source).
The `rating` field keeps the `Option` so that "the persisted rating is never
null" is a statement, not a typing artifact. -/
structure ImplicitRatingEntry where
  timestamp : String
  rating : Option Int
  session_id : String
  source : String
  sentiment_summary : String
  confidence : ℚ
deriving DecidableEq

/-- Semantic content of a low-rating learning markdown file written by
`captureLowRatingLearning`. -/
structure LearningRecordInfo where
  rating : Int
  sentimentSummary : String
  detailedContext : String
deriving DecidableEq

/-- Value returned by `handleImplicitSentiment` on success. -/
structure SentimentHandlerResult where
  rating : Option Int
  sentiment : String
  confidence : ℚ
deriving DecidableEq

/-- Observable effects of one invocation of `handleImplicitSentiment`:
whether the inference collaborator was invoked, the `ratings.jsonl` entry
appended (if any), the learning record written (if any), and the returned
value (`none` models the handler returning `null`). -/
structure HandlerEffects where
  inferenceInvoked : Bool
  ratingEntry : Option ImplicitRatingEntry
  learning : Option LearningRecordInfo
  result : Option SentimentHandlerResult
deriving DecidableEq

def MIN_PROMPT_LENGTH : Nat := 3

def MIN_CONFIDENCE : ℚ := mkRat 1 2

def ANALYSIS_TIMEOUT : Nat := 25000

/-! ### `isExplicitRating`

The source tests `trimmed` against `^(10|[1-9])(?:\s*[-:]\s*|\s+)?(.*)$`
(no `m`/`s` flags, so `.` does not match a newline and `$` is end of string)
and then tests the trimmed remainder against the `sentenceStarters` regex.
The matchers below reproduce the backtracking result of that regex. -/

/-- Leading `(10|[1-9])` alternative of the explicit-rating regex. -/
def parseLeadingRating : List Char → Option (List Char)
  | '1' :: '0' :: rest => some rest
  | c :: rest => if '1' ≤ c ∧ c ≤ '9' then some rest else none
  | [] => none

/-- Result of matching `(?:\s*[-:]\s*|\s+)?(.*)$` against the text after the
leading number: `some comment` gives capture group 2, `none` means the whole
regex fails to match (which happens exactly when a newline survives into the
`(.*)$` part on every backtracking alternative). -/
def matchSepComment (rest : List Char) : Option (List Char) :=
  let w1 := rest.takeWhile isJsSpace
  let after1 := rest.drop w1.length
  let alt1 : Option (List Char) :=
    match after1 with
    | c :: tail =>
      if c == '-' || c == ':' then
        let w2 := tail.takeWhile isJsSpace
        let rem := tail.drop w2.length
        if rem.contains '\n' then none else some rem
      else none
    | [] => none
  match alt1 with
  | some cm => some cm
  | none =>
    if 0 < w1.length ∧ after1.contains '\n' = false then some after1
    else if rest.contains '\n' = false then some rest
    else none

/-- Singular stems of the `sentenceStarters` alternatives written with an
optional `s?` (plus `percent` and `%`): the regex matches when the comment
merely starts with the stem. -/
def plainStarters : List String :=
  ["item", "thing", "step", "file", "line", "bug", "issue", "error", "time",
   "minute", "hour", "day", "second", "percent", "%"]

/-- Alternatives of `sentenceStarters` that carry a `\b` word boundary. -/
def boundaryStarters : List String :=
  ["th", "st", "nd", "rd", "of", "in", "at", "to", "the", "a", "an"]

/-- Word-character class `\w` of JS regexes. -/
def isWordChar (c : Char) : Bool :=
  if ('a' ≤ c ∧ c ≤ 'z') ∨ ('A' ≤ c ∧ c ≤ 'Z') ∨ ('0' ≤ c ∧ c ≤ '9') ∨ c = '_'
  then true else false

/-- Word boundary test after the first `patLen` characters of `cs`. -/
def boundaryAfter (patLen : Nat) (cs : List Char) : Bool :=
  match cs.drop patLen with
  | [] => true
  | c :: _ => !(isWordChar c)

/-- Case-insensitive test of the source's `sentenceStarters` regex against
the start of the comment. -/
def startsWithStarter (comment : List Char) : Bool :=
  let lc := comment.map asciiLower
  plainStarters.any (fun w => isPrefC w.toList lc) ||
  boundaryStarters.any (fun w => isPrefC w.toList lc && boundaryAfter w.toList.length lc)

/-- Model of `isExplicitRating` from `implicit-sentiment.ts`. -/
def isExplicitRating (prompt : String) : Bool :=
  let trimmed := jsTrim prompt.toList
  match parseLeadingRating trimmed with
  | none => false
  | some rest =>
    match matchSepComment rest with
    | none => false
    | some cm =>
      let comment := jsTrim cm
      if comment ≠ [] ∧ startsWithStarter comment = true then false else true

/-! ### `handleImplicitSentiment` -/

/-- Normalization at line 383 of the source: a `null` rating becomes the
baseline rating `5` before any persistence. -/
def normalizeRating : Option Int → Int
  | none => 5
  | some r => r

/-- JavaScript truthiness of an optional string argument (an absent argument
and the empty string are both falsy). -/
def strTruthy : Option String → Bool
  | none => false
  | some s => if s = "" then false else true

/-- Model of `captureLowRatingLearning`: its own `rating >= 6` early return,
then the learning file contents. -/
def captureLowRatingLearning (rating : Int) (summary detail : String) :
    Option LearningRecordInfo :=
  if 6 ≤ rating then none else some ⟨rating, summary, detail⟩

/-- Model of `handleImplicitSentiment`. `raceResult` is the settled value of
`Promise.race([analysisPromise, timeoutPromise])`: `none` covers both the
timeout branch and an unsuccessful inference call (`analyzeSentiment`
returns `null` in that case). -/
def handleImplicitSentiment (prompt sessionId : String)
    (transcriptPath : Option String) (nowTs : String)
    (raceResult : Option SentimentResult) : HandlerEffects :=
  if isExplicitRating prompt then ⟨false, none, none, none⟩
  else if prompt.length < MIN_PROMPT_LENGTH then ⟨false, none, none, none⟩
  else
    match raceResult with
    | none => ⟨true, none, none, none⟩
    | some s =>
      let rN : Int := normalizeRating s.rating
      if s.confidence < MIN_CONFIDENCE then ⟨true, none, none, none⟩
      else
        let entry : ImplicitRatingEntry :=
          ⟨nowTs, some rN, sessionId, "implicit", s.summary, s.confidence⟩
        let learn : Option LearningRecordInfo :=
          if rN < 6 ∧ strTruthy transcriptPath = true then
            captureLowRatingLearning rN s.summary s.detailed_context
          else none
        ⟨true, some entry, learn, some ⟨some rN, s.sentiment, s.confidence⟩⟩

/-- Timed model of `Promise.race([analysisPromise, timeoutPromise])`:
`arrival` is the instant (in ms) at which the inference promise settles
(`none` = it never settles), the timer settles at exactly `ANALYSIS_TIMEOUT`
with `null`, and the race takes whichever settles first. There is a single
inference attempt: no retry exists in the model or the source. -/
def raceSettle (arrival : Option Nat) (value : Option SentimentResult) :
    Nat × Option SentimentResult :=
  match arrival with
  | none => (ANALYSIS_TIMEOUT, none)
  | some t => if t < ANALYSIS_TIMEOUT then (t, value) else (ANALYSIS_TIMEOUT, none)

/-- Handler composed with the race, for the timeout claim. -/
def handleWithRace (prompt sessionId : String) (transcriptPath : Option String)
    (nowTs : String) (arrival : Option Nat) (value : Option SentimentResult) :
    HandlerEffects :=
  handleImplicitSentiment prompt sessionId transcriptPath nowTs
    (raceSettle arrival value).2

/-! ## Theorems about the sentiment handler -/

/-- Normal form of the handler when all gates pass on a settled inference
result. -/
theorem handleImplicitSentiment_pass (prompt sessionId : String)
    (tp : Option String) (nowTs : String) (s : SentimentResult)
    (h1 : isExplicitRating prompt = false)
    (h2 : ¬ prompt.length < MIN_PROMPT_LENGTH)
    (h3 : ¬ s.confidence < MIN_CONFIDENCE) :
    handleImplicitSentiment prompt sessionId tp nowTs (some s) =
      ⟨true,
       some ⟨nowTs, some (normalizeRating s.rating), sessionId, "implicit",
             s.summary, s.confidence⟩,
       (if normalizeRating s.rating < 6 ∧ strTruthy tp = true then
          captureLowRatingLearning (normalizeRating s.rating) s.summary
            s.detailed_context
        else none),
       some ⟨some (normalizeRating s.rating), s.sentiment, s.confidence⟩⟩ := by
  unfold handleImplicitSentiment
  simp [h1, h2, h3]

/-- Silent exits of the handler: any failed gate yields no persisted entry,
no learning record and a `null` return. -/
theorem handleImplicitSentiment_blocked (prompt sessionId : String)
    (tp : Option String) (nowTs : String) (s : SentimentResult)
    (h : isExplicitRating prompt = true ∨ prompt.length < MIN_PROMPT_LENGTH ∨
         s.confidence < MIN_CONFIDENCE) :
    (handleImplicitSentiment prompt sessionId tp nowTs (some s)).ratingEntry = none ∧
    (handleImplicitSentiment prompt sessionId tp nowTs (some s)).learning = none ∧
    (handleImplicitSentiment prompt sessionId tp nowTs (some s)).result = none := by
  unfold handleImplicitSentiment
  rcases h with h | h | h
  · simp [h]
  · by_cases h1 : isExplicitRating prompt = true <;> simp [h1, h]
  · by_cases h1 : isExplicitRating prompt = true
    · simp [h1]
    · by_cases h2 : prompt.length < MIN_PROMPT_LENGTH <;>
        simp [h1, h2, h]

/-- C1. For every sentiment classification that reaches persistence, the
rating of the persisted `RatingEntry` is never null: a `null` rating from
the inference collaborator is normalized to `5` before the entry is written,
and — under the inference collaborator's interface contract that any
non-null rating it returns lies in `1..10` — every rating the classifier
produces (persisted or returned) satisfies `1 ≤ r ≤ 10`. -/
theorem C1_persisted_rating_never_null_and_bounded
    (prompt sessionId : String) (tp : Option String) (nowTs : String)
    (s : SentimentResult) :
    (∀ e, (handleImplicitSentiment prompt sessionId tp nowTs (some s)).ratingEntry
        = some e → e.rating.isSome = true) ∧
    (s.rating = none →
      ∀ e, (handleImplicitSentiment prompt sessionId tp nowTs (some s)).ratingEntry
        = some e → e.rating = some 5) ∧
    ((∀ r : ℤ, s.rating = some r → 1 ≤ r ∧ r ≤ 10) →
      (∀ e (r : ℤ),
        (handleImplicitSentiment prompt sessionId tp nowTs (some s)).ratingEntry
          = some e → e.rating = some r → 1 ≤ r ∧ r ≤ 10) ∧
      (∀ hr (r : ℤ),
        (handleImplicitSentiment prompt sessionId tp nowTs (some s)).result
          = some hr → hr.rating = some r → 1 ≤ r ∧ r ≤ 10)) := by
  by_cases h1 : isExplicitRating prompt = true
  · have hb := handleImplicitSentiment_blocked prompt sessionId tp nowTs s (Or.inl h1)
    refine ⟨?_, ?_, ?_⟩
    · intro e he; rw [hb.1] at he; exact absurd he (by simp)
    · intro _ e he; rw [hb.1] at he; exact absurd he (by simp)
    · intro _
      constructor
      · intro e r he; rw [hb.1] at he; exact absurd he (by simp)
      · intro hr r he; rw [hb.2.2] at he; exact absurd he (by simp)
  · by_cases h2 : prompt.length < MIN_PROMPT_LENGTH
    · have hb := handleImplicitSentiment_blocked prompt sessionId tp nowTs s
        (Or.inr (Or.inl h2))
      refine ⟨?_, ?_, ?_⟩
      · intro e he; rw [hb.1] at he; exact absurd he (by simp)
      · intro _ e he; rw [hb.1] at he; exact absurd he (by simp)
      · intro _
        constructor
        · intro e r he; rw [hb.1] at he; exact absurd he (by simp)
        · intro hr r he; rw [hb.2.2] at he; exact absurd he (by simp)
    · by_cases h3 : s.confidence < MIN_CONFIDENCE
      · have hb := handleImplicitSentiment_blocked prompt sessionId tp nowTs s
          (Or.inr (Or.inr h3))
        refine ⟨?_, ?_, ?_⟩
        · intro e he; rw [hb.1] at he; exact absurd he (by simp)
        · intro _ e he; rw [hb.1] at he; exact absurd he (by simp)
        · intro _
          constructor
          · intro e r he; rw [hb.1] at he; exact absurd he (by simp)
          · intro hr r he; rw [hb.2.2] at he; exact absurd he (by simp)
      · have hp := handleImplicitSentiment_pass prompt sessionId tp nowTs s
          (by simpa using h1) h2 h3
        have hbound : (∀ r : ℤ, s.rating = some r → 1 ≤ r ∧ r ≤ 10) →
            1 ≤ normalizeRating s.rating ∧ normalizeRating s.rating ≤ 10 := by
          intro hc
          cases hs : s.rating with
          | none => simp [normalizeRating]
          | some r => simpa [normalizeRating] using hc r hs
        refine ⟨?_, ?_, ?_⟩
        · intro e he; rw [hp] at he
          simp only [Option.some.injEq] at he
          rw [← he]; rfl
        · intro hnone e he; rw [hp] at he
          simp only [Option.some.injEq] at he
          rw [← he]; simp [hnone, normalizeRating]
        · intro hc
          constructor
          · intro e r he her; rw [hp] at he
            simp only [Option.some.injEq] at he
            rw [← he] at her
            simp only [Option.some.injEq] at her
            rw [← her]; exact hbound hc
          · intro hr r he her; rw [hp] at he
            simp only [Option.some.injEq] at he
            rw [← he] at her
            simp only [Option.some.injEq] at her
            rw [← her]; exact hbound hc

/-- Witness for C1 at a concrete input: a neutral message whose inference
result has a `null` rating is persisted with rating `5`. -/
theorem C1_persisted_rating_never_null_and_bounded_witness :
    (handleImplicitSentiment "thanks so much!!" "s1" none "T"
        (some ⟨none, "neutral", 1, "great", "ctx"⟩)).ratingEntry =
      some ⟨"T", some 5, "s1", "implicit", "great", 1⟩ ∧
    (⟨"T", some 5, "s1", "implicit", "great", 1⟩ : ImplicitRatingEntry).rating
      = some 5 :=
  ⟨by decide,
   (C1_persisted_rating_never_null_and_bounded "thanks so much!!" "s1" none "T"
      ⟨none, "neutral", 1, "great", "ctx"⟩).2.1 rfl _ (by decide)⟩

/-- C2. A classification whose confidence is below the fixed minimum
threshold (`0.5`) persists nothing: no `RatingEntry`, no `LearningRecord`,
and the handler returns `null`, whatever the rating value. -/
theorem C2_low_confidence_suppresses_persistence
    (prompt sessionId : String) (tp : Option String) (nowTs : String)
    (s : SentimentResult) (h : s.confidence < MIN_CONFIDENCE) :
    (handleImplicitSentiment prompt sessionId tp nowTs (some s)).ratingEntry = none ∧
    (handleImplicitSentiment prompt sessionId tp nowTs (some s)).learning = none ∧
    (handleImplicitSentiment prompt sessionId tp nowTs (some s)).result = none :=
  handleImplicitSentiment_blocked prompt sessionId tp nowTs s (Or.inr (Or.inr h))

/-- Witness for C2: confidence `1/4` on an otherwise persistable negative
message yields no entry, no learning record and a `null` return. -/
theorem C2_low_confidence_suppresses_persistence_witness :
    mkRat 1 4 < MIN_CONFIDENCE ∧
    (handleImplicitSentiment "hmm okay fine" "s1" (some "/tmp/t") "T"
        (some ⟨some 3, "negative", mkRat 1 4, "s", "d"⟩)).ratingEntry = none ∧
    (handleImplicitSentiment "hmm okay fine" "s1" (some "/tmp/t") "T"
        (some ⟨some 3, "negative", mkRat 1 4, "s", "d"⟩)).learning = none ∧
    (handleImplicitSentiment "hmm okay fine" "s1" (some "/tmp/t") "T"
        (some ⟨some 3, "negative", mkRat 1 4, "s", "d"⟩)).result = none :=
  ⟨by decide,
   C2_low_confidence_suppresses_persistence "hmm okay fine" "s1" (some "/tmp/t")
     "T" ⟨some 3, "negative", mkRat 1 4, "s", "d"⟩ (by decide)⟩

/-- C3. The explicit-rating guard classifies `"8 great job"` as an explicit
rating, so the handler returns `null` without invoking inference, and
classifies `"3 bugs remain"` as NOT explicit (because `"bugs"` follows the
number), so the classifier runs. -/
theorem C3_explicit_rating_guard :
    isExplicitRating "8 great job" = true ∧
    isExplicitRating "3 bugs remain" = false ∧
    (∀ (sessionId : String) (tp : Option String) (nowTs : String)
       (race : Option SentimentResult),
       handleImplicitSentiment "8 great job" sessionId tp nowTs race =
         ⟨false, none, none, none⟩) ∧
    (∀ (sessionId : String) (tp : Option String) (nowTs : String)
       (race : Option SentimentResult),
       (handleImplicitSentiment "3 bugs remain" sessionId tp nowTs race).inferenceInvoked
         = true) := by
  refine ⟨by decide, by decide, ?_, ?_⟩
  · intro sessionId tp nowTs race
    unfold handleImplicitSentiment
    simp [show isExplicitRating "8 great job" = true by decide]
  · intro sessionId tp nowTs race
    unfold handleImplicitSentiment
    simp only [show isExplicitRating "3 bugs remain" = false by decide,
      Bool.false_eq_true, if_false,
      show ¬ ("3 bugs remain".length < MIN_PROMPT_LENGTH) by decide, if_neg]
    cases race with
    | none => rfl
    | some s => by_cases h : s.confidence < MIN_CONFIDENCE <;> simp [h]

/-- C6. If the inference collaborator never resolves, the race settles at
exactly the fixed timeout boundary (`ANALYSIS_TIMEOUT = 25000` ms) with the
timer's `null` value — not earlier and not later — there is no retry (the
model performs a single race), and the handler persists no `RatingEntry`
and no `LearningRecord` and returns `null` for that turn. -/
theorem C6_timeout_settles_at_boundary_no_persistence :
    ANALYSIS_TIMEOUT = 25000 ∧
    (∀ v : Option SentimentResult, raceSettle none v = (ANALYSIS_TIMEOUT, none)) ∧
    (∀ (prompt sessionId : String) (tp : Option String) (nowTs : String)
       (v : Option SentimentResult),
       handleWithRace prompt sessionId tp nowTs none v =
         handleImplicitSentiment prompt sessionId tp nowTs none) ∧
    (∀ (prompt sessionId : String) (tp : Option String) (nowTs : String),
       (handleImplicitSentiment prompt sessionId tp nowTs none).ratingEntry = none ∧
       (handleImplicitSentiment prompt sessionId tp nowTs none).learning = none ∧
       (handleImplicitSentiment prompt sessionId tp nowTs none).result = none) := by
  refine ⟨rfl, fun v => rfl, fun _ _ _ _ _ => rfl, ?_⟩
  intro prompt sessionId tp nowTs
  unfold handleImplicitSentiment
  by_cases h1 : isExplicitRating prompt = true
  · simp [h1]
  · by_cases h2 : prompt.length < MIN_PROMPT_LENGTH <;> simp [h1, h2]

/-- C9. Even when the classified rating is below 6 and confidence meets the
threshold, no learning record is written unless a (truthy) transcript path
was supplied; the `RatingEntry` is still appended in that case; and with a
non-empty transcript path the learning record is written. -/
theorem C9_transcript_required_for_learning
    (prompt sessionId : String) (nowTs : String) (s : SentimentResult)
    (h1 : isExplicitRating prompt = false)
    (h2 : ¬ prompt.length < MIN_PROMPT_LENGTH)
    (h3 : ¬ s.confidence < MIN_CONFIDENCE)
    (h4 : normalizeRating s.rating < 6) :
    (handleImplicitSentiment prompt sessionId none nowTs (some s)).learning = none ∧
    (handleImplicitSentiment prompt sessionId (some "") nowTs (some s)).learning = none ∧
    (handleImplicitSentiment prompt sessionId none nowTs (some s)).ratingEntry =
      some ⟨nowTs, some (normalizeRating s.rating), sessionId, "implicit",
            s.summary, s.confidence⟩ ∧
    (∀ tpath : String, tpath ≠ "" →
      (handleImplicitSentiment prompt sessionId (some tpath) nowTs (some s)).learning =
        some ⟨normalizeRating s.rating, s.summary, s.detailed_context⟩) := by
  refine ⟨?_, ?_, ?_, ?_⟩
  · rw [handleImplicitSentiment_pass prompt sessionId none nowTs s h1 h2 h3]
    simp [strTruthy]
  · rw [handleImplicitSentiment_pass prompt sessionId (some "") nowTs s h1 h2 h3]
    simp [strTruthy]
  · rw [handleImplicitSentiment_pass prompt sessionId none nowTs s h1 h2 h3]
  · intro tpath ht
    rw [handleImplicitSentiment_pass prompt sessionId (some tpath) nowTs s h1 h2 h3]
    have hst : strTruthy (some tpath) = true := by simp [strTruthy, ht]
    show (if _ ∧ _ then _ else _) = _
    rw [if_pos ⟨h4, hst⟩]
    unfold captureLowRatingLearning
    rw [if_neg (by omega)]

/-- Witness for C9: a rating-3, confidence-3/4 classification writes the
rating entry but no learning record when no transcript path is given, and
writes the learning record when one is. -/
theorem C9_transcript_required_for_learning_witness :
    (handleImplicitSentiment "hmm okay fine" "s1" none "T"
        (some ⟨some 3, "negative", mkRat 3 4, "s", "d"⟩)).learning = none ∧
    (handleImplicitSentiment "hmm okay fine" "s1" none "T"
        (some ⟨some 3, "negative", mkRat 3 4, "s", "d"⟩)).ratingEntry =
      some ⟨"T", some 3, "s1", "implicit", "s", mkRat 3 4⟩ ∧
    (handleImplicitSentiment "hmm okay fine" "s1" (some "/tmp/t") "T"
        (some ⟨some 3, "negative", mkRat 3 4, "s", "d"⟩)).learning =
      some ⟨3, "s", "d"⟩ := by
  have h := C9_transcript_required_for_learning "hmm okay fine" "s1" "T"
    ⟨some 3, "negative", mkRat 3 4, "s", "d"⟩ (by decide) (by decide) (by decide)
    (by decide)
  exact ⟨h.1, h.2.2.1, h.2.2.2 "/tmp/t" (by decide)⟩

/-! ## ResponseCapture handler (`response-capture.ts`) -/

/-- Satisfaction record of an ISC document. `partCount` models the source
field named `partial` (count of partially satisfied criteria). -/
structure Satisfaction where
  satisfied : Nat
  partCount : Nat
  failed : Nat
  total : Nat
deriving DecidableEq

/-- Persisted `ISC.json` document (`ISCDocument` in the source). -/
structure ISCDocument where
  taskId : String
  status : String
  effortLevel : String
  criteria : List String
  antiCriteria : List String
  satisfaction : Option Satisfaction
  createdAt : String
  updatedAt : String
deriving DecidableEq

/-- Optional sections parsed from an assistant response
(`StructuredResponse` in the source); `none` models an absent field. -/
structure StructuredResponse where
  summary : Option String
  analysis : Option String
  actions : Option String
  results : Option String
  status : Option String
  next : Option String
  completed : Option String
  date : Option String
deriving DecidableEq

/-! ### `extractEffortLevel`: regex `level\s+(QUICK|STANDARD|THOROUGH|TRIVIAL)` with `i` -/

def effortLevels : List String := ["QUICK", "STANDARD", "THOROUGH", "TRIVIAL"]

/-- Attempt of the effort-level regex anchored at the current position. -/
def matchEffortAt (cs : List Char) : Option String :=
  if ciPrefC "level".toList cs then
    let rest := cs.drop 5
    let w := rest.takeWhile isJsSpace
    if 0 < w.length then
      effortLevels.find? (fun lvl => ciPrefC lvl.toList (rest.drop w.length))
    else none
  else none

/-- Unanchored search for the effort-level pattern, leftmost match first. -/
def extractEffortLevelGo : List Char → Option String
  | [] => none
  | c :: rest =>
    match matchEffortAt (c :: rest) with
    | some lvl => some lvl
    | none => extractEffortLevelGo rest

/-- Model of `extractEffortLevel`; the returned value is already the
upper-case enum constant, as in the source's `match[1].toUpperCase()`. -/
def extractEffortLevel (text : String) : Option String :=
  extractEffortLevelGo text.toList

/-! ### `extractISCSatisfaction`

First regex: `(\d+)\s*(?:ISC\s*)?criteria?,?\s*all\s*satisfied` (flag `i`);
second regex: `(\d+)\/(\d+)\s*criteria\s*satisfied` (flag `i`). -/

/-- Tail `\s*all\s*satisfied` of the all-satisfied regex. -/
def tailAllSatisfiedCore (cs : List Char) : Bool :=
  let cs2 := cs.dropWhile isJsSpace
  ciPrefC "all".toList cs2 &&
    ciPrefC "satisfied".toList ((cs2.drop 3).dropWhile isJsSpace)

/-- Tail `,?\s*all\s*satisfied` (the optional comma backtracks). -/
def tailAllSatisfied (cs : List Char) : Bool :=
  match cs with
  | ',' :: rest => tailAllSatisfiedCore rest || tailAllSatisfiedCore cs
  | _ => tailAllSatisfiedCore cs

/-- Tail after the literal `criteri`: optional `a`, then the comma tail. -/
def afterCriteri (cs : List Char) : Bool :=
  (match cs with
   | c :: rest => if asciiLower c = 'a' then tailAllSatisfied rest else false
   | [] => false) ||
  tailAllSatisfied cs

/-- Attempt of the all-satisfied regex anchored at the current position;
returns the parsed count `N`. -/
def allSatisfiedAt (cs : List Char) : Option Nat :=
  let ds := cs.takeWhile isDigitC
  if ds.length = 0 then none
  else
    let rest := (cs.drop ds.length).dropWhile isJsSpace
    let base := fun (cs2 : List Char) =>
      ciPrefC "criteri".toList cs2 && afterCriteri (cs2.drop 7)
    if (ciPrefC "isc".toList rest && base ((rest.drop 3).dropWhile isJsSpace))
        || base rest
    then some (digitsToNat ds) else none

/-- Unanchored search for the all-satisfied pattern. -/
def findAllSatisfied : List Char → Option Nat
  | [] => none
  | c :: rest =>
    match allSatisfiedAt (c :: rest) with
    | some n => some n
    | none => findAllSatisfied rest

/-- Attempt of the `X/Y criteria satisfied` regex anchored at the current
position; returns `(X, Y)`. -/
def fracSatAt (cs : List Char) : Option (Nat × Nat) :=
  let d1 := cs.takeWhile isDigitC
  if d1.length = 0 then none
  else
    match cs.drop d1.length with
    | '/' :: rest =>
      let d2 := rest.takeWhile isDigitC
      if d2.length = 0 then none
      else
        let rest2 := (rest.drop d2.length).dropWhile isJsSpace
        if ciPrefC "criteria".toList rest2 &&
           ciPrefC "satisfied".toList ((rest2.drop 8).dropWhile isJsSpace)
        then some (digitsToNat d1, digitsToNat d2) else none
    | _ => none

/-- Unanchored search for the `X/Y criteria satisfied` pattern. -/
def findFracSat : List Char → Option (Nat × Nat)
  | [] => none
  | c :: rest =>
    match fracSatAt (c :: rest) with
    | some p => some p
    | none => findFracSat rest

/-- Model of `extractISCSatisfaction`: the all-satisfied phrasing wins,
then the `X/Y` phrasing, else no satisfaction data. -/
def extractISCSatisfaction (text : String) : Option Satisfaction :=
  match findAllSatisfied text.toList with
  | some n => some ⟨n, 0, 0, n⟩
  | none =>
    match findFracSat text.toList with
    | some (a, b) => some ⟨a, 0, 0, b⟩
    | none => none

/-- Literal completion marker tested with `text.includes(..)` at line 139 of
the source (the marker string is byte-identical to the source file). -/
def COMPLETION_MARKER : List Char := "‚úì COMPLETE".toList

def containsMarker (text : String) : Bool :=
  isInfC COMPLETION_MARKER text.toList

/-- Pure core of `updateTaskISC`: the in-memory document transformation
between `JSON.parse` and `writeFileSync`. -/
def applyISCUpdate (doc : ISCDocument) (text : String) (nowTs : String) :
    ISCDocument :=
  let d1 := match extractEffortLevel text with
    | some e => { doc with effortLevel := e }
    | none => doc
  let d2 := match extractISCSatisfaction text with
    | some s => { d1 with satisfaction := some s,
                          status := if s.satisfied = s.total then "COMPLETE"
                                    else "PARTIAL" }
    | none => d1
  let d3 := if containsMarker text = true then { d2 with status := "COMPLETE" }
            else d2
  { d3 with updatedAt := nowTs }

/-- File-level `updateTaskISC`: a missing file is skipped, a parse failure
is caught leaving the file unchanged, otherwise the updated document is
serialized back. `parseISC`/`printISC` stand for `JSON.parse`/
`JSON.stringify`, external to the claims. -/
def updateTaskISCRun (parseISC : String → Except String ISCDocument)
    (printISC : ISCDocument → String) (file : Option String)
    (text nowTs : String) : Option String :=
  match file with
  | none => none
  | some s =>
    match parseISC s with
    | Except.error _ => some s
    | Except.ok doc => some (printISC (applyISCUpdate doc text nowTs))

/-! ### `updateTaskMeta`: string-level patching of `THREAD.md` -/

def statusInProgressLine : List Char := "status: \"IN_PROGRESS\"".toList

def statusDoneLine : List Char := "status: \"DONE\"".toList

def completedAtKey : List Char := "completedAt:".toList

def summaryKey : List Char := "summary:".toList

def dashes : List Char := ['-', '-', '-']

/-- Frontmatter opener `---` plus newline, the anchored `^---\n` part of the
header-insertion regex. -/
def hdr : List Char := ['-', '-', '-', '\n']

/-- Split at newline characters (the lines seen by a `m`-flagged regex). -/
def splitOnNl : List Char → List (List Char)
  | [] => [[]]
  | c :: cs =>
    if c = '\n' then [] :: splitOnNl cs
    else
      match splitOnNl cs with
      | [] => [[c]]
      | l :: ls => (c :: l) :: ls

/-- Inverse of `splitOnNl`. -/
def joinNl : List (List Char) → List Char
  | [] => []
  | [l] => l
  | l :: ls => l ++ '\n' :: joinNl ls

/-- First line equal to `status: "IN_PROGRESS"` becomes `status: "DONE"`
(the source's non-global `replace` with a `^..$`/`m` regex). -/
def replaceFirstStatus : List (List Char) → List (List Char)
  | [] => []
  | l :: ls => if l = statusInProgressLine then statusDoneLine :: ls
               else l :: replaceFirstStatus ls

def statusReplace (cs : List Char) : List Char :=
  joinNl (replaceFirstStatus (splitOnNl cs))

/-- Leftmost decomposition `body = p ++ q` with `q` starting in `---`,
modelling the lazy `[\s\S]*?(---)` part of the frontmatter regex. -/
def splitAtDashes : List Char → Option (List Char × List Char)
  | [] => none
  | c :: cs =>
    if isPrefC dashes (c :: cs) then some ([], c :: cs)
    else match splitAtDashes cs with
      | some pq => some (c :: pq.1, pq.2)
      | none => none

/-- Model of `content.replace(/^(---\n[\s\S]*?)(---)/, ..)` used to insert a
header line `ins` just before the closing `---` of the frontmatter; if the
regex does not match, the content is unchanged. -/
def insertFM (ins : List Char) (cs : List Char) : List Char :=
  if isPrefC hdr cs then
    match splitAtDashes (cs.drop 4) with
    | some pq => hdr ++ (pq.1 ++ ins ++ pq.2)
    | none => cs
  else cs

/-- Success condition of the frontmatter-insertion regex
`^(---\n[\s\S]*?)(---)`. -/
def fmPattern (cs : List Char) : Bool :=
  isPrefC hdr cs && (splitAtDashes (cs.drop 4)).isSome

/-- Global replacement of `"` by `\"` (the source's `replace(/"/g, '\\"')`). -/
def escapeQuotes : List Char → List Char
  | [] => []
  | c :: cs => if c = '"' then '\\' :: '"' :: escapeQuotes cs
               else c :: escapeQuotes cs

/-- Header line `completedAt: "<timestamp>"` plus newline. -/
def completedAtIns (nowTs : String) : List Char :=
  completedAtKey ++ [' ', '"'] ++ nowTs.toList ++ ['"', '\n']

/-- Header line `summary: "<escaped summary>"` plus newline. -/
def summaryIns (sm : List Char) : List Char :=
  summaryKey ++ [' ', '"'] ++ escapeQuotes sm ++ ['"', '\n']

/-- JavaScript `a || b` on optional strings (empty string is falsy). -/
def jsOrStr : Option String → Option String → Option String
  | some s, b => if s = "" then b else some s
  | none, b => b

/-- Second step of `updateTaskMeta`: add the `completedAt:` header line
only when `completedAt:` occurs nowhere in the content. -/
def metaStep2 (nowTs : String) (c : List Char) : List Char :=
  if isInfC completedAtKey c then c else insertFM (completedAtIns nowTs) c

/-- Third step of `updateTaskMeta`: add the `summary:` header line only when
the truncated summary is non-empty and `summary:` occurs nowhere. -/
def metaStep3 (sumRaw : List Char) (c : List Char) : List Char :=
  if sumRaw ≠ [] ∧ isInfC summaryKey c = false then insertFM (summaryIns sumRaw) c
  else c

/-- Model of `updateTaskMeta`'s content transformation: when the structured
response carries a completion or summary signal, flip the status line, then
add `completedAt:` and `summary:` header lines, each only if not already
present anywhere in the content. -/
def updateTaskMetaContent (st : StructuredResponse) (nowTs : String)
    (content : List Char) : List Char :=
  match jsOrStr st.completed st.summary with
  | none => content
  | some sm =>
    if sm = "" then content
    else metaStep3 (sm.toList.take 200) (metaStep2 nowTs (statusReplace content))

/-- File-level `updateTaskMeta`: a missing `THREAD.md` is skipped. -/
def updateTaskMetaRun (st : StructuredResponse) (nowTs : String)
    (file : Option (List Char)) : Option (List Char) :=
  match file with
  | none => none
  | some c => some (updateTaskMetaContent st nowTs c)

/-- Outermost `try/catch` of the public entry point
`handleResponseCapture`: every error raised by the enclosed pipeline is
logged and swallowed, and the handler resolves normally. -/
def handleResponseCapture (inner : Except String Unit) : Except String Unit :=
  match inner with
  | Except.ok _ => Except.ok ()
  | Except.error _ => Except.ok ()

/-! ## Theorems about the response-capture handler -/

/-- Sample ISC document used by concrete witnesses. -/
def sampleISC : ISCDocument :=
  ⟨"task-1", "IN_PROGRESS", "STANDARD", ["c1", "c2"], ["a1"], none, "C0", "U0"⟩

/-- C4. The Task State Updater's ISC postcondition: text matching
`(N) criteria, all satisfied` yields satisfaction
`{satisfied: N, partial: 0, failed: 0, total: N}`; text matching
`(A)/(B) criteria satisfied` yields `{satisfied: A, partial: 0, failed: 0,
total: B}`; if neither phrasing matches, `satisfaction` is left untouched;
`status` becomes `COMPLETE` when `satisfied = total` and `PARTIAL`
otherwise; and a literal completion marker forces `status = COMPLETE`
regardless of the satisfaction data. -/
theorem C4_isc_satisfaction_postcondition (doc : ISCDocument) (nowTs : String) :
    extractISCSatisfaction "6 criteria, all satisfied" = some ⟨6, 0, 0, 6⟩ ∧
    extractISCSatisfaction "2/5 criteria satisfied" = some ⟨2, 0, 0, 5⟩ ∧
    (∀ text, extractISCSatisfaction text = none →
      (applyISCUpdate doc text nowTs).satisfaction = doc.satisfaction) ∧
    (∀ text s, extractISCSatisfaction text = some s →
      (applyISCUpdate doc text nowTs).satisfaction = some s ∧
      (containsMarker text = false →
        (applyISCUpdate doc text nowTs).status =
          (if s.satisfied = s.total then "COMPLETE" else "PARTIAL"))) ∧
    (∀ text, containsMarker text = true →
      (applyISCUpdate doc text nowTs).status = "COMPLETE") := by
  refine ⟨by decide, by decide, ?_, ?_, ?_⟩
  · intro text h
    unfold applyISCUpdate
    rw [h]
    cases heff : extractEffortLevel text <;>
      by_cases hm : containsMarker text = true <;> simp [hm]
  · intro text s h
    unfold applyISCUpdate
    rw [h]
    constructor
    · cases heff : extractEffortLevel text <;>
        by_cases hm : containsMarker text = true <;> simp [hm]
    · intro hm
      cases heff : extractEffortLevel text <;> simp [hm]
  · intro text hm
    unfold applyISCUpdate
    rw [hm]
    cases heff : extractEffortLevel text <;>
      cases hs : extractISCSatisfaction text <;> simp

/-- Witness for C4 at concrete inputs: the `2/5` phrasing with no completion
marker sets satisfaction `{2,0,0,5}` and status `PARTIAL`, and a marker-free
unmatched text leaves satisfaction untouched. -/
theorem C4_isc_satisfaction_postcondition_witness :
    (applyISCUpdate sampleISC "2/5 criteria satisfied" "T1").satisfaction =
      some ⟨2, 0, 0, 5⟩ ∧
    (applyISCUpdate sampleISC "2/5 criteria satisfied" "T1").status = "PARTIAL" ∧
    (applyISCUpdate sampleISC "no phrasing here" "T1").satisfaction =
      sampleISC.satisfaction := by
  have h := C4_isc_satisfaction_postcondition sampleISC "T1"
  have h4 := h.2.2.2.1 "2/5 criteria satisfied" ⟨2, 0, 0, 5⟩ (by decide)
  exact ⟨h4.1, by simpa using h4.2 (by decide),
         h.2.2.1 "no phrasing here" (by decide)⟩

/-- C8. The ISC update is a merge-patch: `taskId`, `criteria`,
`antiCriteria` and `createdAt` are never modified; `effortLevel` is
overwritten exactly when a level token is found; `satisfaction` is
overwritten exactly when one of the two phrasings matches. -/
theorem C8_isc_merge_patch_frame (doc : ISCDocument) (text nowTs : String) :
    (applyISCUpdate doc text nowTs).taskId = doc.taskId ∧
    (applyISCUpdate doc text nowTs).criteria = doc.criteria ∧
    (applyISCUpdate doc text nowTs).antiCriteria = doc.antiCriteria ∧
    (applyISCUpdate doc text nowTs).createdAt = doc.createdAt ∧
    (extractEffortLevel text = none →
      (applyISCUpdate doc text nowTs).effortLevel = doc.effortLevel) ∧
    (∀ e, extractEffortLevel text = some e →
      (applyISCUpdate doc text nowTs).effortLevel = e) ∧
    (extractISCSatisfaction text = none →
      (applyISCUpdate doc text nowTs).satisfaction = doc.satisfaction) ∧
    (∀ s, extractISCSatisfaction text = some s →
      (applyISCUpdate doc text nowTs).satisfaction = some s) := by
  unfold applyISCUpdate
  cases heff : extractEffortLevel text <;>
    cases hs : extractISCSatisfaction text <;>
      by_cases hm : containsMarker text = true <;>
        simp [hm]

/-- Witness for C8: a text with a level token but no satisfaction phrasing
overwrites only `effortLevel` (plus `updatedAt`), leaving the other fields
of the sample document untouched. -/
theorem C8_isc_merge_patch_frame_witness :
    (applyISCUpdate sampleISC "working at level THOROUGH" "T2").taskId = "task-1" ∧
    (applyISCUpdate sampleISC "working at level THOROUGH" "T2").criteria =
      ["c1", "c2"] ∧
    (applyISCUpdate sampleISC "working at level THOROUGH" "T2").effortLevel =
      "THOROUGH" ∧
    (applyISCUpdate sampleISC "working at level THOROUGH" "T2").satisfaction =
      sampleISC.satisfaction := by
  have h := C8_isc_merge_patch_frame sampleISC "working at level THOROUGH" "T2"
  exact ⟨h.1, h.2.1, h.2.2.2.2.2.1 "THOROUGH" (by decide),
         h.2.2.2.2.2.2.1 (by decide)⟩

/-- C10. Whenever the ISC document exists and parses successfully, the
updater stamps `updatedAt` with the current time and rewrites the file on
every invocation — even when the text contains no effort token, no
satisfaction phrasing and no completion marker, in which case the rewritten
document differs from the original only in `updatedAt`. -/
theorem C10_always_rewrites_and_stamps_updatedAt
    (parseISC : String → Except String ISCDocument)
    (printISC : ISCDocument → String) (s : String) (doc : ISCDocument)
    (text nowTs : String) (h : parseISC s = Except.ok doc) :
    updateTaskISCRun parseISC printISC (some s) text nowTs =
      some (printISC (applyISCUpdate doc text nowTs)) ∧
    (applyISCUpdate doc text nowTs).updatedAt = nowTs ∧
    (extractEffortLevel text = none → extractISCSatisfaction text = none →
      containsMarker text = false →
      applyISCUpdate doc text nowTs = { doc with updatedAt := nowTs }) := by
  refine ⟨?_, ?_, ?_⟩
  · simp [updateTaskISCRun, h]
  · unfold applyISCUpdate
    cases heff : extractEffortLevel text <;>
      cases hs : extractISCSatisfaction text <;>
        by_cases hm : containsMarker text = true <;> simp [hm]
  · intro h1 h2 h3
    unfold applyISCUpdate
    rw [h1, h2, h3]
    simp

/-- Witness for C10: with a parser that accepts the fixed file string, a
text with no extractable data still rewrites the file, changing only
`updatedAt`. -/
theorem C10_always_rewrites_and_stamps_updatedAt_witness :
    updateTaskISCRun
        (fun c => if c = "FILE" then Except.ok sampleISC else Except.error "bad")
        (fun d => d.updatedAt) (some "FILE") "nothing extractable" "T3" =
      some "T3" ∧
    applyISCUpdate sampleISC "nothing extractable" "T3" =
      { sampleISC with updatedAt := "T3" } := by
  have h := C10_always_rewrites_and_stamps_updatedAt
    (fun c => if c = "FILE" then Except.ok sampleISC else Except.error "bad")
    (fun d => d.updatedAt) "FILE" sampleISC "nothing extractable" "T3"
    (by simp)
  have h3 := h.2.2 (by decide) (by decide) (by decide)
  exact ⟨by rw [h.1, h3], h3⟩

/-- C7. Failure semantics of the Task State Updater: a missing ISC or
thread document is skipped rather than an error; malformed JSON in the ISC
document is caught leaving the file byte-for-byte unchanged; and the public
entry point swallows every error of the enclosed pipeline, never
propagating an exception. -/
theorem C7_missing_or_malformed_skipped_never_throws :
    (∀ (parseISC : String → Except String ISCDocument)
       (printISC : ISCDocument → String) (text nowTs : String),
       updateTaskISCRun parseISC printISC none text nowTs = none) ∧
    (∀ (st : StructuredResponse) (nowTs : String),
       updateTaskMetaRun st nowTs none = none) ∧
    (∀ (parseISC : String → Except String ISCDocument)
       (printISC : ISCDocument → String) (s text nowTs msg : String),
       parseISC s = Except.error msg →
       updateTaskISCRun parseISC printISC (some s) text nowTs = some s) ∧
    (∀ inner : Except String Unit, handleResponseCapture inner = Except.ok ()) := by
  refine ⟨fun _ _ _ _ => rfl, fun _ _ => rfl, ?_, ?_⟩
  · intro parseISC printISC s text nowTs msg h
    simp [updateTaskISCRun, h]
  · intro inner
    cases inner <;> rfl

/-- Witness for C7: a parser that rejects the file content leaves the file
exactly as it was. -/
theorem C7_missing_or_malformed_skipped_never_throws_witness :
    (fun (_ : String) => (Except.error "unexpected token" :
        Except String ISCDocument)) "not json" = Except.error "unexpected token" ∧
    updateTaskISCRun
        (fun _ => Except.error "unexpected token") (fun d => d.updatedAt)
        (some "not json") "text" "T4" = some "not json" :=
  ⟨rfl,
   C7_missing_or_malformed_skipped_never_throws.2.2.1
     (fun _ => Except.error "unexpected token") (fun d => d.updatedAt)
     "not json" "text" "T4" "unexpected token" rfl⟩

/-! ## Substring-counting machinery for the thread-document idempotence claim -/

theorem isPrefC_nil_false (pat : List Char) (h : pat ≠ []) :
    isPrefC pat [] = false := by
  cases pat with
  | nil => cases h rfl
  | cons p ps => rfl

theorem isPrefC_cons_ne (p : Char) (ps : List Char) (c : Char) (cs : List Char)
    (h : p ≠ c) : isPrefC (p :: ps) (c :: cs) = false := by
  simp [isPrefC, h]

theorem isPrefC_self_append (pat r : List Char) :
    isPrefC pat (pat ++ r) = true := by
  induction pat with
  | nil => rfl
  | cons p ps ih => simp [isPrefC, ih]

theorem isPrefC_iff_exists_append (pat cs : List Char) :
    isPrefC pat cs = true ↔ ∃ r, cs = pat ++ r := by
  constructor
  · induction pat generalizing cs with
    | nil => intro _; exact ⟨cs, rfl⟩
    | cons p ps ih =>
      intro h
      cases cs with
      | nil => simp [isPrefC] at h
      | cons c cs =>
        simp only [isPrefC, Bool.and_eq_true, beq_iff_eq] at h
        obtain ⟨r, hr⟩ := ih cs h.2
        exact ⟨r, by simp [h.1, hr]⟩
  · rintro ⟨r, rfl⟩; exact isPrefC_self_append pat r

theorem isInfC_of_isPrefC (pat cs : List Char) (h : isPrefC pat cs = true) :
    isInfC pat cs = true := by
  cases cs with
  | nil => simpa [isInfC] using h
  | cons c cs => simp [isInfC, h]

theorem isInfC_append_left (pat a b : List Char) (h : isInfC pat b = true) :
    isInfC pat (a ++ b) = true := by
  induction a with
  | nil => simpa using h
  | cons c a ih => simp [isInfC, ih]

/-- A pattern cannot begin at a position whose character is not in the
pattern's tail: the no-span condition used to split substring counts at a
junction whose right side starts with a known character. -/
theorem noSpan_of_not_mem (pat : List Char) (c0 : Char) (h : c0 ∉ pat.drop 1) :
    ∀ (tail : List Char) (j : Nat), 0 < j → j < pat.length →
      isPrefC (pat.drop j) (c0 :: tail) = false := by
  intro tail j hj hjl
  cases hd : pat.drop j with
  | nil =>
    exfalso
    have := List.drop_eq_nil_iff.mp hd
    omega
  | cons x rest =>
    have hx : x ∈ pat.drop j := by rw [hd]; exact List.mem_cons_self x rest
    have hsub : pat.drop j ⊆ pat.drop 1 := by
      obtain ⟨k, rfl⟩ : ∃ k, j = 1 + k := ⟨j - 1, by omega⟩
      rw [← List.drop_drop]
      exact List.drop_subset k (pat.drop 1)
    exact isPrefC_cons_ne x rest c0 tail (fun he => h (he ▸ hsub hx))

theorem isPrefC_append_right (xs pat b : List Char) (hx : xs ≠ [])
    (hb : ∀ j, 0 < j → j < pat.length → isPrefC (pat.drop j) b = false) :
    isPrefC pat (xs ++ b) = isPrefC pat xs := by
  induction xs generalizing pat with
  | nil => cases hx rfl
  | cons x xs ih =>
    cases pat with
    | nil => rfl
    | cons p ps =>
      show (p == x && isPrefC ps (xs ++ b)) = (p == x && isPrefC ps xs)
      cases hpx : (p == x) with
      | false => rfl
      | true =>
        show isPrefC ps (xs ++ b) = isPrefC ps xs
        cases xs with
        | nil =>
          show isPrefC ps b = isPrefC ps []
          cases ps with
          | nil => rfl
          | cons q qs =>
            have h1 : isPrefC (q :: qs) b = false :=
              hb 1 (by omega) (by simp only [List.length_cons]; omega)
            rw [h1, isPrefC_nil_false (q :: qs) (by simp)]
        | cons y ys =>
          refine ih ps (by simp) ?_
          intro j hj hjl
          exact hb (j + 1) (by omega) (by simp only [List.length_cons]; omega)

theorem countSub_nil (pat : List Char) (h : pat ≠ []) : countSub pat [] = 0 := by
  simp [countSub, isPrefC_nil_false pat h]

theorem countSub_append (a pat b : List Char) (hne : pat ≠ [])
    (hb : ∀ j, 0 < j → j < pat.length → isPrefC (pat.drop j) b = false) :
    countSub pat (a ++ b) = countSub pat a + countSub pat b := by
  induction a with
  | nil => simp [countSub_nil pat hne]
  | cons c a ih =>
    have h1 : countSub pat ((c :: a) ++ b) =
        (if isPrefC pat ((c :: a) ++ b) then 1 else 0) + countSub pat (a ++ b) := rfl
    have h2 : countSub pat (c :: a) =
        (if isPrefC pat (c :: a) then 1 else 0) + countSub pat a := rfl
    rw [h1, h2, ih, isPrefC_append_right (c :: a) pat b (by simp) hb]
    omega

theorem countSub_pos_iff (pat : List Char) (cs : List Char) :
    0 < countSub pat cs ↔ isInfC pat cs = true := by
  induction cs with
  | nil =>
    cases hp : isPrefC pat [] <;> simp [countSub, isInfC, hp]
  | cons c cs ih =>
    cases hp : isPrefC pat (c :: cs) <;> simp [countSub, isInfC, hp, ih]

theorem countSub_eq_of_isInf_eq (pat a b : List Char)
    (h : countSub pat a = countSub pat b) :
    isInfC pat a = isInfC pat b := by
  cases hb : isInfC pat b with
  | true => exact (countSub_pos_iff pat a).mp (h ▸ (countSub_pos_iff pat b).mpr hb)
  | false =>
    cases ha : isInfC pat a with
    | false => rfl
    | true =>
      exfalso
      have := (countSub_pos_iff pat a).mpr ha
      rw [h] at this
      rw [(countSub_pos_iff pat b).mp this] at hb
      cases hb

theorem splitOnNl_cons (c : Char) (cs : List Char) :
    splitOnNl (c :: cs) = if c = '\n' then [] :: splitOnNl cs
      else match splitOnNl cs with | [] => [[c]] | l :: ls => (c :: l) :: ls := rfl

theorem splitOnNl_ne_nil (cs : List Char) : splitOnNl cs ≠ [] := by
  induction cs with
  | nil => simp [splitOnNl]
  | cons c cs ih =>
    rw [splitOnNl_cons]
    by_cases h : c = '\n'
    · simp [h]
    · rw [if_neg h]
      cases hs : splitOnNl cs with
      | nil => simp
      | cons l ls => simp

theorem joinNl_splitOnNl (cs : List Char) : joinNl (splitOnNl cs) = cs := by
  induction cs with
  | nil => rfl
  | cons c cs ih =>
    rw [splitOnNl_cons]
    by_cases h : c = '\n'
    · rw [if_pos h, h]
      cases hs : splitOnNl cs with
      | nil => exact absurd hs (splitOnNl_ne_nil cs)
      | cons l ls =>
        show ([] : List Char) ++ '\n' :: joinNl (l :: ls) = '\n' :: cs
        rw [List.nil_append, ← hs, ih]
    · rw [if_neg h]
      cases hs : splitOnNl cs with
      | nil => exact absurd hs (splitOnNl_ne_nil cs)
      | cons l ls =>
        rw [hs] at ih
        cases ls with
        | nil =>
          show c :: l = c :: cs
          have hl : l = cs := ih
          rw [hl]
        | cons l2 ls2 =>
          show (c :: l) ++ '\n' :: joinNl (l2 :: ls2) = c :: cs
          have hj : joinNl (l :: l2 :: ls2) = l ++ '\n' :: joinNl (l2 :: ls2) := rfl
          rw [List.cons_append, ← hj, ih]

theorem splitOnNl_no_nl (cs : List Char) :
    ∀ l ∈ splitOnNl cs, '\n' ∉ l := by
  induction cs with
  | nil =>
    intro l hl
    simp [splitOnNl] at hl
    simp [hl]
  | cons c cs ih =>
    intro l hl
    rw [splitOnNl_cons] at hl
    by_cases h : c = '\n'
    · rw [if_pos h] at hl
      rcases List.mem_cons.mp hl with rfl | hl
      · simp
      · exact ih l hl
    · rw [if_neg h] at hl
      cases hs : splitOnNl cs with
      | nil => exact absurd hs (splitOnNl_ne_nil cs)
      | cons l0 ls =>
        rw [hs] at hl
        rcases List.mem_cons.mp hl with rfl | hl
        · intro hmem
          rcases List.mem_cons.mp hmem with he | hmem
          · exact h he.symm
          · exact ih l0 (by rw [hs]; exact List.mem_cons_self l0 ls) hmem
        · exact ih l (by rw [hs]; exact List.mem_cons.mpr (Or.inr hl)) 

theorem splitOnNl_of_no_nl (l : List Char) (h : '\n' ∉ l) :
    splitOnNl l = [l] := by
  induction l with
  | nil => rfl
  | cons c cs ih =>
    have hc : c ≠ '\n' := fun he => h (he ▸ List.mem_cons_self c cs)
    rw [splitOnNl_cons, if_neg hc,
        ih (fun hm => h (List.mem_cons.mpr (Or.inr hm)))]

theorem splitOnNl_append_nl (l r : List Char) (h : '\n' ∉ l) :
    splitOnNl (l ++ '\n' :: r) = l :: splitOnNl r := by
  induction l with
  | nil => rw [List.nil_append, splitOnNl_cons, if_pos rfl]
  | cons c cs ih =>
    have hc : c ≠ '\n' := fun he => h (he ▸ List.mem_cons_self c cs)
    rw [List.cons_append, splitOnNl_cons, if_neg hc,
        ih (fun hm => h (List.mem_cons.mpr (Or.inr hm)))]

theorem countSub_cons_of_head_ne (p : Char) (ps : List Char) (c : Char)
    (cs : List Char) (h : p ≠ c) :
    countSub (p :: ps) (c :: cs) = countSub (p :: ps) cs := by
  show (if isPrefC (p :: ps) (c :: cs) then 1 else 0) + countSub (p :: ps) cs
      = countSub (p :: ps) cs
  rw [isPrefC_cons_ne p ps c cs h]
  simp

theorem countSub_nl_cons (pat : List Char) (hne : pat ≠ []) (hnl : '\n' ∉ pat)
    (cs : List Char) : countSub pat ('\n' :: cs) = countSub pat cs := by
  cases pat with
  | nil => cases hne rfl
  | cons p ps =>
    exact countSub_cons_of_head_ne p ps '\n' cs
      (fun he => hnl (he ▸ List.mem_cons_self p ps))

theorem countSub_joinNl (pat : List Char) (hne : pat ≠ []) (hnl : '\n' ∉ pat)
    (L : List (List Char)) :
    countSub pat (joinNl L) = (L.map (countSub pat)).sum := by
  induction L with
  | nil => simpa using countSub_nil pat hne
  | cons l L ih =>
    cases L with
    | nil =>
      show countSub pat l = (List.map (countSub pat) [l]).sum
      simp
    | cons l2 ls =>
      show countSub pat (l ++ '\n' :: joinNl (l2 :: ls)) = _
      rw [countSub_append l pat ('\n' :: joinNl (l2 :: ls)) hne
        (fun j hj hjl => noSpan_of_not_mem pat '\n'
          (fun hm => hnl (List.drop_subset 1 pat hm)) (joinNl (l2 :: ls)) j hj hjl)]
      rw [countSub_nl_cons pat hne hnl, ih]
      simp

theorem rfs_cons (l : List Char) (ls : List (List Char)) :
    replaceFirstStatus (l :: ls) =
      if l = statusInProgressLine then statusDoneLine :: ls
      else l :: replaceFirstStatus ls := rfl

theorem rfs_ne_nil (L : List (List Char)) (h : L ≠ []) :
    replaceFirstStatus L ≠ [] := by
  cases L with
  | nil => cases h rfl
  | cons l ls =>
    rw [rfs_cons]
    by_cases hl : l = statusInProgressLine <;> simp [hl]

theorem rfs_no_nl (L : List (List Char)) (h : ∀ l ∈ L, '\n' ∉ l) :
    ∀ l ∈ replaceFirstStatus L, '\n' ∉ l := by
  induction L with
  | nil => intro l hl; simp [replaceFirstStatus] at hl
  | cons l0 ls ih =>
    intro l hl
    rw [rfs_cons] at hl
    by_cases h0 : l0 = statusInProgressLine
    · rw [if_pos h0] at hl
      rcases List.mem_cons.mp hl with rfl | hl
      · decide
      · exact h l (List.mem_cons.mpr (Or.inr hl))
    · rw [if_neg h0] at hl
      rcases List.mem_cons.mp hl with rfl | hl
      · exact h l (List.mem_cons_self l ls)
      · exact ih (fun x hx => h x (List.mem_cons.mpr (Or.inr hx))) l hl

theorem rfs_map_sum (pat : List Char)
    (h1 : countSub pat statusInProgressLine = 0)
    (h2 : countSub pat statusDoneLine = 0) (L : List (List Char)) :
    ((replaceFirstStatus L).map (countSub pat)).sum =
      (L.map (countSub pat)).sum := by
  induction L with
  | nil => rfl
  | cons l ls ih =>
    rw [rfs_cons]
    by_cases h0 : l = statusInProgressLine
    · rw [if_pos h0, h0]; simp [h1, h2]
    · rw [if_neg h0]; simp [ih]

theorem statusReplace_countSub (pat : List Char) (hne : pat ≠ [])
    (hnl : '\n' ∉ pat) (h1 : countSub pat statusInProgressLine = 0)
    (h2 : countSub pat statusDoneLine = 0) (cs : List Char) :
    countSub pat (statusReplace cs) = countSub pat cs := by
  unfold statusReplace
  rw [countSub_joinNl pat hne hnl, rfs_map_sum pat h1 h2,
      ← countSub_joinNl pat hne hnl, joinNl_splitOnNl]

theorem statusReplace_isInfC (pat : List Char) (hne : pat ≠ [])
    (hnl : '\n' ∉ pat) (h1 : countSub pat statusInProgressLine = 0)
    (h2 : countSub pat statusDoneLine = 0) (cs : List Char) :
    isInfC pat (statusReplace cs) = isInfC pat cs :=
  countSub_eq_of_isInf_eq pat _ _ (statusReplace_countSub pat hne hnl h1 h2 cs)

theorem splitAtDashes_cons (c : Char) (cs : List Char) :
    splitAtDashes (c :: cs) =
      if isPrefC dashes (c :: cs) then some ([], c :: cs)
      else match splitAtDashes cs with
        | some pq => some (c :: pq.1, pq.2)
        | none => none := rfl

theorem splitAtDashes_some (body : List Char) :
    ∀ p q, splitAtDashes body = some (p, q) →
      body = p ++ q ∧ isPrefC dashes q = true := by
  induction body with
  | nil => intro p q h; simp [splitAtDashes] at h
  | cons c cs ih =>
    intro p q h
    rw [splitAtDashes_cons] at h
    by_cases hp : isPrefC dashes (c :: cs) = true
    · rw [if_pos hp] at h
      simp only [Option.some.injEq, Prod.mk.injEq] at h
      obtain ⟨h1, h2⟩ := h
      refine ⟨?_, ?_⟩
      · rw [← h1, ← h2]; rfl
      · rw [← h2]; exact hp
    · rw [if_neg hp] at h
      cases hs : splitAtDashes cs with
      | none => rw [hs] at h; simp at h
      | some pq =>
        rw [hs] at h
        simp only [Option.some.injEq, Prod.mk.injEq] at h
        obtain ⟨h1, h2⟩ := h
        obtain ⟨hb, hq⟩ := ih pq.1 pq.2 (by rw [hs])
        constructor
        · rw [← h1, ← h2, List.cons_append, ← hb]
        · rw [← h2]; exact hq

theorem splitAtDashes_isSome (body : List Char) :
    (splitAtDashes body).isSome = isInfC dashes body := by
  induction body with
  | nil => rfl
  | cons c cs ih =>
    rw [splitAtDashes_cons]
    by_cases hp : isPrefC dashes (c :: cs) = true
    · rw [if_pos hp]
      show true = isInfC dashes (c :: cs)
      simp [isInfC, hp]
    · rw [if_neg hp]
      have hp' : isPrefC dashes (c :: cs) = false := by
        cases hb : isPrefC dashes (c :: cs)
        · rfl
        · exact absurd hb hp
      cases hs : splitAtDashes cs with
      | none =>
        show (none : Option (List Char × List Char)).isSome = isInfC dashes (c :: cs)
        rw [hs] at ih
        simp only [isInfC, hp', Bool.false_or]
        exact ih
      | some pq =>
        show (some (c :: pq.1, pq.2)).isSome = isInfC dashes (c :: cs)
        rw [hs] at ih
        simp only [isInfC, hp', Bool.false_or]
        exact ih

theorem insertFM_of_fmPattern_false (ins cs : List Char)
    (h : fmPattern cs = false) : insertFM ins cs = cs := by
  unfold insertFM
  unfold fmPattern at h
  by_cases hp : isPrefC hdr cs = true
  · rw [hp] at h
    simp only [Bool.true_and] at h
    have hnone : splitAtDashes (cs.drop 4) = none :=
      Option.not_isSome_iff_eq_none.mp (by simp [h])
    rw [if_pos hp, hnone]
  · rw [if_neg hp]

theorem insertFM_of_fmPattern_true (ins cs : List Char)
    (h : fmPattern cs = true) :
    ∃ p q, splitAtDashes (cs.drop 4) = some (p, q) ∧
      cs = hdr ++ (p ++ q) ∧ isPrefC dashes q = true ∧
      insertFM ins cs = hdr ++ (p ++ ins ++ q) := by
  unfold fmPattern at h
  simp only [Bool.and_eq_true] at h
  obtain ⟨hp, hs⟩ := h
  obtain ⟨r, hr⟩ := (isPrefC_iff_exists_append hdr cs).mp hp
  cases hsp : splitAtDashes (cs.drop 4) with
  | none => rw [hsp] at hs; simp at hs
  | some pq =>
    obtain ⟨hbody, hq⟩ := splitAtDashes_some (cs.drop 4) pq.1 pq.2 (by rw [hsp])
    refine ⟨pq.1, pq.2, rfl, ?_, hq, ?_⟩
    · have hr4 : cs.drop 4 = r := by
        rw [hr]
        have hdl := List.drop_left hdr r
        simpa [hdr] using hdl
      rw [hr, ← hbody, hr4]
    · unfold insertFM
      rw [if_pos hp, hsp]

theorem insertFM_fmPattern (ins cs : List Char) :
    fmPattern (insertFM ins cs) = fmPattern cs := by
  cases h : fmPattern cs with
  | false => rw [insertFM_of_fmPattern_false ins cs h]; exact h
  | true =>
    obtain ⟨p, q, hsp, hcs, hq, hins⟩ := insertFM_of_fmPattern_true ins cs h
    rw [hins]
    unfold fmPattern
    rw [isPrefC_self_append hdr (p ++ ins ++ q)]
    have h2 : (hdr ++ (p ++ ins ++ q)).drop 4 = p ++ ins ++ q := by
      have hdl := List.drop_left hdr (p ++ ins ++ q)
      simpa [hdr] using hdl
    rw [h2, splitAtDashes_isSome]
    have hq' : isInfC dashes q = true := isInfC_of_isPrefC dashes q hq
    rw [isInfC_append_left dashes (p ++ ins) q hq']
    rfl

theorem insertFM_countSub (pat ins cs : List Char) (hne : pat ≠ [])
    (hd : '-' ∉ pat.drop 1) (i0 : Char) (hins : ins.head? = some i0)
    (hi0 : i0 ∉ pat.drop 1) :
    countSub pat (insertFM ins cs) =
      countSub pat cs + (if fmPattern cs = true then countSub pat ins else 0) := by
  cases h : fmPattern cs with
  | false => rw [insertFM_of_fmPattern_false ins cs h]; simp [h]
  | true =>
    obtain ⟨p, q, hsp, hcs, hq, hinsfm⟩ := insertFM_of_fmPattern_true ins cs h
    rw [hinsfm, if_pos rfl]
    obtain ⟨qt, hqt⟩ : ∃ qt, q = '-' :: qt := by
      cases q with
      | nil => rw [isPrefC_nil_false dashes (by decide)] at hq; cases hq
      | cons q0 qt =>
        have hq0 : q0 = '-' := by
          by_contra hne0
          have hq' : isPrefC ('-' :: ['-', '-']) (q0 :: qt) = true := hq
          rw [isPrefC_cons_ne '-' ['-', '-'] q0 qt (fun he => hne0 he.symm)] at hq'
          cases hq'
        exact ⟨qt, by rw [hq0]⟩
    obtain ⟨it, hit⟩ : ∃ it, ins = i0 :: it := by
      cases ins with
      | nil => simp at hins
      | cons a b =>
        simp only [List.head?_cons, Option.some.injEq] at hins
        exact ⟨b, by rw [hins]⟩
    have hbq : ∀ j, 0 < j → j < pat.length → isPrefC (pat.drop j) q = false := by
      intro j hj hjl
      rw [hqt]
      exact noSpan_of_not_mem pat '-' hd qt j hj hjl
    have hbi : ∀ j, 0 < j → j < pat.length →
        isPrefC (pat.drop j) ins = false := by
      intro j hj hjl
      rw [hit]
      exact noSpan_of_not_mem pat i0 hi0 it j hj hjl
    have e1 : countSub pat (hdr ++ (p ++ ins ++ q)) =
        countSub pat (hdr ++ p) + countSub pat ins + countSub pat q := by
      rw [← List.append_assoc hdr (p ++ ins) q,
          countSub_append (hdr ++ (p ++ ins)) pat q hne hbq,
          ← List.append_assoc hdr p ins,
          countSub_append (hdr ++ p) pat ins hne hbi]
    have e2 : countSub pat cs = countSub pat (hdr ++ p) + countSub pat q := by
      rw [hcs, ← List.append_assoc hdr p q,
          countSub_append (hdr ++ p) pat q hne hbq]
    rw [e1, e2]
    omega

theorem insertFM_isInfC_mono (pat ins cs : List Char) (hne : pat ≠ [])
    (hd : '-' ∉ pat.drop 1) (i0 : Char) (hins : ins.head? = some i0)
    (hi0 : i0 ∉ pat.drop 1) (h : isInfC pat cs = true) :
    isInfC pat (insertFM ins cs) = true := by
  rw [← countSub_pos_iff] at h ⊢
  rw [insertFM_countSub pat ins cs hne hd i0 hins hi0]
  omega

theorem insertFM_isInfC_self (pat ins cs : List Char) (hne : pat ≠ [])
    (hd : '-' ∉ pat.drop 1) (i0 : Char) (hins : ins.head? = some i0)
    (hi0 : i0 ∉ pat.drop 1) (hpref : isPrefC pat ins = true)
    (hfm : fmPattern cs = true) :
    isInfC pat (insertFM ins cs) = true := by
  rw [← countSub_pos_iff]
  rw [insertFM_countSub pat ins cs hne hd i0 hins hi0, if_pos hfm]
  have hpos : 0 < countSub pat ins :=
    (countSub_pos_iff pat ins).mpr (isInfC_of_isPrefC pat ins hpref)
  omega

theorem append_nl_inj : ∀ (l m X Y : List Char), '\n' ∉ l → '\n' ∉ m →
    l ++ '\n' :: X = m ++ '\n' :: Y → l = m ∧ X = Y := by
  intro l
  induction l with
  | nil =>
    intro m X Y _ hm h
    cases m with
    | nil => simpa using h
    | cons c m' =>
      exfalso
      rw [List.nil_append, List.cons_append] at h
      have hc : '\n' = c := (List.cons.injEq _ _ _ _ ▸ h : _ ∧ _).1
      exact hm (by rw [← hc]; exact List.mem_cons_self _ _)
  | cons a l' ih =>
    intro m X Y hl hm h
    cases m with
    | nil =>
      exfalso
      rw [List.cons_append, List.nil_append] at h
      have hc : a = '\n' := (List.cons.injEq _ _ _ _ ▸ h : _ ∧ _).1
      exact hl (by rw [hc]; exact List.mem_cons_self _ _)
    | cons c m' =>
      rw [List.cons_append, List.cons_append] at h
      have h12 : a = c ∧ l' ++ '\n' :: X = m' ++ '\n' :: Y :=
        (List.cons.injEq _ _ _ _ ▸ h : _ ∧ _)
      obtain ⟨hlm, hXY⟩ := ih m' X Y (fun hx => hl (List.mem_cons.mpr (Or.inr hx)))
        (fun hx => hm (List.mem_cons.mpr (Or.inr hx))) h12.2
      exact ⟨by rw [h12.1, hlm], hXY⟩

theorem isPrefC_hdr_append_nl (l R : List Char) (hl : '\n' ∉ l) :
    isPrefC hdr (l ++ '\n' :: R) = true ↔ l = dashes := by
  constructor
  · intro h
    obtain ⟨r, hr⟩ := (isPrefC_iff_exists_append hdr (l ++ '\n' :: R)).mp h
    have hr' : l ++ '\n' :: R = dashes ++ '\n' :: r := hr
    exact (append_nl_inj l dashes R r hl (by decide) hr').1
  · intro h
    rw [h]
    have hq : dashes ++ '\n' :: R = hdr ++ R := rfl
    rw [hq]
    exact isPrefC_self_append hdr R

theorem isPrefC_hdr_joinNl (L : List (List Char)) (h : ∀ l ∈ L, '\n' ∉ l) :
    (isPrefC hdr (joinNl L) = true ↔ ∃ ls, L = dashes :: ls ∧ ls ≠ []) := by
  cases L with
  | nil =>
    rw [show joinNl ([] : List (List Char)) = [] from rfl,
        isPrefC_nil_false hdr (by decide)]
    simp
  | cons l L' =>
    cases L' with
    | nil =>
      rw [show joinNl [l] = l from rfl]
      constructor
      · intro hp
        obtain ⟨r, hr⟩ := (isPrefC_iff_exists_append hdr l).mp hp
        exfalso
        apply h l (List.mem_cons_self _ _)
        rw [hr]
        exact List.mem_append.mpr (Or.inl (by decide))
      · rintro ⟨ls, hL, hne⟩
        exfalso
        injection hL with h1 h2
        exact hne h2.symm
    | cons l2 ls2 =>
      rw [show joinNl (l :: l2 :: ls2) = l ++ '\n' :: joinNl (l2 :: ls2) from rfl,
          isPrefC_hdr_append_nl l _ (h l (List.mem_cons_self _ _))]
      constructor
      · intro hl
        exact ⟨l2 :: ls2, by rw [hl], by simp⟩
      · rintro ⟨ls, hL, _⟩
        injection hL

theorem statusReplace_isPrefC_hdr (cs : List Char) :
    isPrefC hdr (statusReplace cs) = isPrefC hdr cs := by
  have hL : ∀ l ∈ splitOnNl cs, '\n' ∉ l := splitOnNl_no_nl cs
  have hL' : ∀ l ∈ replaceFirstStatus (splitOnNl cs), '\n' ∉ l := rfs_no_nl _ hL
  have e1 := isPrefC_hdr_joinNl (replaceFirstStatus (splitOnNl cs)) hL'
  have e2 := isPrefC_hdr_joinNl (splitOnNl cs) hL
  rw [joinNl_splitOnNl] at e2
  have key : (∃ ls, replaceFirstStatus (splitOnNl cs) = dashes :: ls ∧ ls ≠ []) ↔
      (∃ ls, splitOnNl cs = dashes :: ls ∧ ls ≠ []) := by
    generalize splitOnNl cs = L
    cases L with
    | nil => simp [replaceFirstStatus]
    | cons l ls =>
      rw [rfs_cons]
      by_cases h0 : l = statusInProgressLine
      · rw [if_pos h0]
        constructor
        · rintro ⟨ls', hL, hne⟩
          injection hL with h1 h2
          exact absurd h1 (by decide)
        · rintro ⟨ls', hL, hne⟩
          injection hL with h1 h2
          rw [h0] at h1
          exact absurd h1 (by decide)
      · rw [if_neg h0]
        constructor
        · rintro ⟨ls', hL, hne⟩
          injection hL with h1 h2
          refine ⟨ls, by rw [h1], ?_⟩
          intro hnil
          exact hne (by rw [← h2, hnil]; rfl)
        · rintro ⟨ls', hL, hne⟩
          injection hL with h1 h2
          refine ⟨replaceFirstStatus ls, by rw [h1], ?_⟩
          exact rfs_ne_nil ls (fun hnil => hne (by rw [← h2, hnil]))
  show isPrefC hdr (joinNl (replaceFirstStatus (splitOnNl cs))) = isPrefC hdr cs
  cases hb : isPrefC hdr cs with
  | true => exact e1.mpr (key.mpr (e2.mp hb))
  | false =>
    cases hb2 : isPrefC hdr (joinNl (replaceFirstStatus (splitOnNl cs))) with
    | false => rfl
    | true =>
      exfalso
      rw [e2.mpr (key.mp (e1.mp hb2))] at hb
      cases hb

theorem statusReplace_decomp (cs : List Char) (h : isPrefC hdr cs = true) :
    statusReplace cs = hdr ++ statusReplace (cs.drop 4) := by
  obtain ⟨r, hr⟩ := (isPrefC_iff_exists_append hdr cs).mp h
  have hr4 : cs.drop 4 = r := by
    rw [hr]
    have hdl := List.drop_left hdr r
    simpa [hdr] using hdl
  rw [hr4, hr]
  unfold statusReplace
  have hsplit : splitOnNl (hdr ++ r) = dashes :: splitOnNl r := by
    have heq : hdr ++ r = dashes ++ '\n' :: r := rfl
    rw [heq, splitOnNl_append_nl dashes r (by decide)]
  rw [hsplit, rfs_cons, if_neg (by decide)]
  have hne := rfs_ne_nil (splitOnNl r) (splitOnNl_ne_nil r)
  cases hrf : replaceFirstStatus (splitOnNl r) with
  | nil => exact absurd hrf hne
  | cons x xs =>
    show joinNl (dashes :: x :: xs) = hdr ++ joinNl (x :: xs)
    rfl

theorem statusReplace_fmPattern (cs : List Char) :
    fmPattern (statusReplace cs) = fmPattern cs := by
  unfold fmPattern
  by_cases hp : isPrefC hdr cs = true
  · rw [statusReplace_isPrefC_hdr cs, hp]
    simp only [Bool.true_and]
    rw [statusReplace_decomp cs hp]
    have h4 : (hdr ++ statusReplace (cs.drop 4)).drop 4 = statusReplace (cs.drop 4) := by
      have hdl := List.drop_left hdr (statusReplace (cs.drop 4))
      simpa [hdr] using hdl
    rw [h4, splitAtDashes_isSome, splitAtDashes_isSome]
    exact statusReplace_isInfC dashes (by decide) (by decide) (by decide) (by decide)
      (cs.drop 4)
  · have hp' : isPrefC hdr cs = false := by
      cases hb : isPrefC hdr cs
      · rfl
      · exact absurd hb hp
    rw [statusReplace_isPrefC_hdr cs, hp']
    rfl

theorem completedAtIns_head (nowTs : String) :
    (completedAtIns nowTs).head? = some 'c' := rfl

theorem summaryIns_head (sm : List Char) :
    (summaryIns sm).head? = some 's' := rfl

theorem completedAtIns_isPrefC (nowTs : String) :
    isPrefC completedAtKey (completedAtIns nowTs) = true := by
  apply (isPrefC_iff_exists_append _ _).mpr
  exact ⟨[' ', '"'] ++ nowTs.toList ++ ['"', '\n'],
    by simp [completedAtIns, List.append_assoc]⟩

theorem summaryIns_isPrefC (sm : List Char) :
    isPrefC summaryKey (summaryIns sm) = true := by
  apply (isPrefC_iff_exists_append _ _).mpr
  exact ⟨[' ', '"'] ++ escapeQuotes sm ++ ['"', '\n'],
    by simp [summaryIns, List.append_assoc]⟩

theorem statusReplace_countSub_cak (c : List Char) :
    countSub completedAtKey (statusReplace c) = countSub completedAtKey c :=
  statusReplace_countSub completedAtKey (by decide) (by decide) (by decide)
    (by decide) c

theorem statusReplace_countSub_sk (c : List Char) :
    countSub summaryKey (statusReplace c) = countSub summaryKey c :=
  statusReplace_countSub summaryKey (by decide) (by decide) (by decide)
    (by decide) c

theorem statusReplace_isInfC_cak (c : List Char) :
    isInfC completedAtKey (statusReplace c) = isInfC completedAtKey c :=
  statusReplace_isInfC completedAtKey (by decide) (by decide) (by decide)
    (by decide) c

theorem statusReplace_isInfC_sk (c : List Char) :
    isInfC summaryKey (statusReplace c) = isInfC summaryKey c :=
  statusReplace_isInfC summaryKey (by decide) (by decide) (by decide)
    (by decide) c

theorem metaStep2_fmPattern (nowTs : String) (c : List Char) :
    fmPattern (metaStep2 nowTs c) = fmPattern c := by
  unfold metaStep2
  by_cases h : isInfC completedAtKey c = true
  · rw [if_pos h]
  · rw [if_neg h, insertFM_fmPattern]

theorem metaStep3_fmPattern (sr : List Char) (c : List Char) :
    fmPattern (metaStep3 sr c) = fmPattern c := by
  unfold metaStep3
  by_cases h : sr ≠ [] ∧ isInfC summaryKey c = false
  · rw [if_pos h, insertFM_fmPattern]
  · rw [if_neg h]

theorem metaStep2_isInfC_cak (nowTs : String) (c : List Char)
    (h : fmPattern c = true) :
    isInfC completedAtKey (metaStep2 nowTs c) = true := by
  unfold metaStep2
  by_cases hc : isInfC completedAtKey c = true
  · rw [if_pos hc]; exact hc
  · rw [if_neg hc]
    exact insertFM_isInfC_self completedAtKey (completedAtIns nowTs) c (by decide)
      (by decide) 'c' (completedAtIns_head nowTs) (by decide)
      (completedAtIns_isPrefC nowTs) h

theorem metaStep3_preserves_cak (sr : List Char) (c : List Char)
    (h : isInfC completedAtKey c = true) :
    isInfC completedAtKey (metaStep3 sr c) = true := by
  unfold metaStep3
  by_cases hc : sr ≠ [] ∧ isInfC summaryKey c = false
  · rw [if_pos hc]
    exact insertFM_isInfC_mono completedAtKey (summaryIns sr) c (by decide)
      (by decide) 's' (summaryIns_head sr) (by decide) h
  · rw [if_neg hc]; exact h

theorem metaStep3_isInfC_sk (sr : List Char) (c : List Char)
    (h : fmPattern c = true) (hsr : sr ≠ []) :
    isInfC summaryKey (metaStep3 sr c) = true := by
  unfold metaStep3
  by_cases hc : isInfC summaryKey c = true
  · rw [if_neg (fun hand => by simp [hc] at hand)]
    exact hc
  · have hc' : isInfC summaryKey c = false := by
      cases hb : isInfC summaryKey c
      · rfl
      · exact absurd hb hc
    rw [if_pos ⟨hsr, hc'⟩]
    exact insertFM_isInfC_self summaryKey (summaryIns sr) c (by decide) (by decide)
      's' (summaryIns_head sr) (by decide) (summaryIns_isPrefC sr) h

/-- Second application of the thread-document update (status replace plus
the two conditional header insertions) degenerates to the status replace
alone: both insertions are skipped. -/
theorem metaTwice (ts1 ts2 : String) (sr content : List Char) :
    metaStep3 sr (metaStep2 ts2 (statusReplace
        (metaStep3 sr (metaStep2 ts1 (statusReplace content))))) =
      statusReplace (metaStep3 sr (metaStep2 ts1 (statusReplace content))) := by
  set c1 := metaStep3 sr (metaStep2 ts1 (statusReplace content)) with hc1
  set s1 := statusReplace c1 with hs1
  have hfm_c1 : fmPattern c1 = fmPattern content := by
    rw [hc1, metaStep3_fmPattern, metaStep2_fmPattern, statusReplace_fmPattern]
  have hfm_s1 : fmPattern s1 = fmPattern content := by
    rw [hs1, statusReplace_fmPattern, hfm_c1]
  have hstep2 : metaStep2 ts2 s1 = s1 := by
    unfold metaStep2
    by_cases hc : isInfC completedAtKey s1 = true
    · rw [if_pos hc]
    · rw [if_neg hc]
      apply insertFM_of_fmPattern_false
      cases hfm : fmPattern content with
      | false => rw [hfm_s1]; exact hfm
      | true =>
        exfalso
        apply hc
        have h1 : isInfC completedAtKey (metaStep2 ts1 (statusReplace content)) = true :=
          metaStep2_isInfC_cak ts1 _ (by rw [statusReplace_fmPattern]; exact hfm)
        have h2 : isInfC completedAtKey c1 = true := by
          rw [hc1]
          exact metaStep3_preserves_cak sr _ h1
        rw [hs1, statusReplace_isInfC_cak]
        exact h2
  rw [hstep2]
  unfold metaStep3
  by_cases hcond : sr ≠ [] ∧ isInfC summaryKey s1 = false
  · rw [if_pos hcond]
    apply insertFM_of_fmPattern_false
    cases hfm : fmPattern content with
    | false => rw [hfm_s1]; exact hfm
    | true =>
      exfalso
      have h1 : isInfC summaryKey c1 = true := by
        rw [hc1]
        exact metaStep3_isInfC_sk sr _
          (by rw [metaStep2_fmPattern, statusReplace_fmPattern]; exact hfm) hcond.1
      have h2 : isInfC summaryKey s1 = true := by
        rw [hs1, statusReplace_isInfC_sk]
        exact h1
      have h3 := hcond.2
      rw [h2] at h3
      cases h3
  · rw [if_neg hcond]

/-- C5. The Task State Updater is idempotent: applying it twice with the
same assistant response text yields the same ISC `satisfaction` and
`status` as applying it once, and the second application does not duplicate
or overwrite the thread document's `completedAt:` or `summary:` header
fields — the number of occurrences of each header key is unchanged by the
second application (they are added only if not already present; the first
write wins). -/
theorem C5_task_state_updater_idempotent (st : StructuredResponse)
    (doc : ISCDocument) (text ts1 ts2 : String) (content : List Char) :
    (applyISCUpdate (applyISCUpdate doc text ts1) text ts2).satisfaction =
      (applyISCUpdate doc text ts1).satisfaction ∧
    (applyISCUpdate (applyISCUpdate doc text ts1) text ts2).status =
      (applyISCUpdate doc text ts1).status ∧
    countSub completedAtKey
        (updateTaskMetaContent st ts2 (updateTaskMetaContent st ts1 content)) =
      countSub completedAtKey (updateTaskMetaContent st ts1 content) ∧
    countSub summaryKey
        (updateTaskMetaContent st ts2 (updateTaskMetaContent st ts1 content)) =
      countSub summaryKey (updateTaskMetaContent st ts1 content) := by
  refine ⟨?_, ?_, ?_, ?_⟩
  · cases hsat : extractISCSatisfaction text <;>
      cases heff : extractEffortLevel text <;>
        by_cases hm : containsMarker text = true <;>
          simp [applyISCUpdate, hsat, heff, hm]
  · cases hsat : extractISCSatisfaction text <;>
      cases heff : extractEffortLevel text <;>
        by_cases hm : containsMarker text = true <;>
          simp [applyISCUpdate, hsat, heff, hm]
  · cases hg : jsOrStr st.completed st.summary with
    | none => simp [updateTaskMetaContent, hg]
    | some sm =>
      by_cases hsm : sm = ""
      · simp [updateTaskMetaContent, hg, hsm]
      · have hu : ∀ (ts : String) (c : List Char), updateTaskMetaContent st ts c =
            metaStep3 (sm.toList.take 200) (metaStep2 ts (statusReplace c)) := by
          intro ts c
          simp [updateTaskMetaContent, hg, hsm]
        rw [hu ts1 content, hu ts2 _, metaTwice ts1 ts2 (sm.toList.take 200) content,
            statusReplace_countSub_cak]
  · cases hg : jsOrStr st.completed st.summary with
    | none => simp [updateTaskMetaContent, hg]
    | some sm =>
      by_cases hsm : sm = ""
      · simp [updateTaskMetaContent, hg, hsm]
      · have hu : ∀ (ts : String) (c : List Char), updateTaskMetaContent st ts c =
            metaStep3 (sm.toList.take 200) (metaStep2 ts (statusReplace c)) := by
          intro ts c
          simp [updateTaskMetaContent, hg, hsm]
        rw [hu ts1 content, hu ts2 _, metaTwice ts1 ts2 (sm.toList.take 200) content,
            statusReplace_countSub_sk]
